import Mathlib

/-!
Shallow embedding of the look-ahead tree search of
src/local_planner/src/nodes/star_planner.cpp (StarPlanner::buildLookAheadTree)
over exact rational arithmetic, parameterized by the external collaborators
(trajectory simulator, cost evaluator, braking-distance speed limiter,
vector norm and quaternion rotation), which the specification treats as
opaque deterministic functions.
-/

namespace StarPlanner

/-- A 3-vector of exact rationals, modelling Eigen::Vector3f. -/
structure Vec3 where
  x : ℚ
  y : ℚ
  z : ℚ
deriving DecidableEq, Repr

instance : Inhabited Vec3 := ⟨⟨0, 0, 0⟩⟩

/-- Componentwise subtraction, modelling Eigen vector subtraction. -/
def Vec3.sub (a b : Vec3) : Vec3 := ⟨a.x - b.x, a.y - b.y, a.z - b.z⟩

instance : Sub Vec3 := ⟨Vec3.sub⟩

/-- Eigen::Vector3f::Zero(). -/
def Vec3.zero : Vec3 := ⟨0, 0, 0⟩

/-- simulation_state (sim.h): position, velocity, acceleration, time. -/
structure simulation_state where
  position : Vec3
  velocity : Vec3
  acceleration : Vec3
  time : ℚ
deriving DecidableEq, Repr

/-- Modelled from the spec: the simulation_state constructor invoked as
simulation_state(0.f, goal_) at line 91 (sim.h is not under src/); the spec
calls the result the instantaneous state at the goal position, so the given
time and position with zero velocity and acceleration. -/
def simStateAt (t : ℚ) (p : Vec3) : simulation_state :=
  ⟨p, Vec3.zero, Vec3.zero, t⟩

/-- Modelled from the spec: simulation_limits (sim.h is not under src/) — the
kinodynamic limits object, with max jerk / acceleration / xy-velocity norms
(the fields buildLookAheadTree reads) plus the z-velocity bounds standing for
the remaining fields, which the function copies but never reads. -/
structure simulation_limits where
  max_z_velocity : ℚ
  min_z_velocity : ℚ
  max_xy_velocity_norm : ℚ
  max_acceleration_norm : ℚ
  max_jerk_norm : ℚ
deriving DecidableEq, Repr

/-- TreeNode (tree_node.h): parent index origin_, simulation state, setpoint,
heuristic value, total score and closed flag. -/
structure TreeNode where
  origin_ : ℕ
  state : simulation_state
  setpoint : Vec3
  heuristic_ : ℚ
  total_cost_ : ℚ
  closed_ : Bool
deriving DecidableEq, Repr

instance : Inhabited TreeNode := ⟨⟨0, simStateAt 0 Vec3.zero, Vec3.zero, 0, 0, false⟩⟩

/-- Modelled from the spec: the TreeNode(from, state, setpoint) constructor
(tree_node.cpp is not under src/) — costs start at zero and the closed flag
starts false, becoming true only once the node is expanded. -/
def mkTreeNode (from_ : ℕ) (st : simulation_state) (sp : Vec3) : TreeNode :=
  ⟨from_, st, sp, 0, 0, false⟩

def TreeNode.getPosition (n : TreeNode) : Vec3 := n.state.position

def TreeNode.getVelocity (n : TreeNode) : Vec3 := n.state.velocity

def TreeNode.getSetpoint (n : TreeNode) : Vec3 := n.setpoint

/-- Modelled from the spec: TreeNode::setCosts(h, c) (tree_node.cpp is not
under src/) — stores the heuristic and the total score. -/
def TreeNode.setCosts (n : TreeNode) (h c : ℚ) : TreeNode :=
  { n with heuristic_ := h, total_cost_ := c }

/-- The external collaborators of the search, fixed for one invocation:
nrm models Eigen .norm(); nrm2 models .head&lt;2&gt;().norm() on the two given
components; rot models rotation of a candidate by the current orientation
q_; brake models computeMaxSpeedFromBrakingDistance(jerk, accel, distance);
simEnd models the terminal state trajectory.back() of
TrajectorySimulator(limits, state, step).generate_trajectory(direction,
duration), the only element the planner consumes; cost models
simpleCost(node, goal, cost_params_, cloud_) with the cost parameters and
point cloud of the invocation baked in; now models ros::Time::now().toSec().
The claims quantify over every deterministic behavior of these functions. -/
structure Ext where
  nrm : Vec3 → ℚ
  nrm2 : ℚ → ℚ → ℚ
  rot : Vec3 → Vec3
  brake : ℚ → ℚ → ℚ → ℚ
  simEnd : simulation_limits → simulation_state → ℚ → Vec3 → ℚ → simulation_state
  cost : TreeNode → Vec3 → ℚ
  now : ℚ

/-- The immutable per-invocation snapshot of the StarPlanner member fields
read by buildLookAheadTree. -/
structure Inputs where
  position_ : Vec3
  velocity_ : Vec3
  goal_ : Vec3
  lims_ : simulation_limits
  acceptance_radius_ : ℚ
  max_sensor_range_ : ℚ
  tree_node_duration_ : ℚ
  tree_heuristic_weight_ : ℚ

/-- The 10 candidate directions of lines 52-56 (0.707f written exactly). -/
def candidates : List Vec3 :=
  [⟨1, 0, 0⟩, ⟨0, 1, 0⟩, ⟨0, 0, 1⟩, ⟨-1, 0, 0⟩, ⟨0, -1, 0⟩, ⟨0, 0, -1⟩,
   ⟨707/1000, 707/1000, 0⟩, ⟨707/1000, -707/1000, 0⟩,
   ⟨-707/1000, 707/1000, 0⟩, ⟨-707/1000, -707/1000, 0⟩]

/-- The mutable state of the expansion loop: the node arena tree_, the
closed_set_, the current origin index, and the has_reached_goal flag. -/
structure LoopState where
  tree : List TreeNode
  closed_set : List ℕ
  origin : ℕ
  has_reached_goal : Bool
deriving DecidableEq, Repr

/-- treeHeuristicFunction (lines 43-45):
(goal_ - tree_[node_number].getPosition()).norm() * tree_heuristic_weight_. -/
def treeHeuristicFunction (E : Ext) (I : Inputs) (tree : List TreeNode)
    (node_number : ℕ) : ℚ :=
  E.nrm (I.goal_ - (tree.getD node_number default).getPosition) * I.tree_heuristic_weight_

/-- Lines 76-83: the local copy of lims_ whose max_xy_velocity_norm is
clamped by the two braking-distance bounds (distance to goal in the
horizontal plane, and the configured max sensor range). -/
def adjustedLimits (E : Ext) (I : Inputs) (st : simulation_state) : simulation_limits :=
  { I.lims_ with
    max_xy_velocity_norm :=
      min (min (E.brake I.lims_.max_jerk_norm I.lims_.max_acceleration_norm
                  (E.nrm2 (st.position.x - I.goal_.x) (st.position.y - I.goal_.y)))
            (E.brake I.lims_.max_jerk_norm I.lims_.max_acceleration_norm
                  I.max_sensor_range_))
        I.lims_.max_xy_velocity_norm }

/-- Position of node i in the arena, tree_[i].getPosition(). -/
def getPos (tree : List TreeNode) (i : ℕ) : Vec3 :=
  (tree.getD i default).getPosition

/-- The goal/horizon guard of lines 89-90, with the C++ precedence
(origin > 1 AND goal close) OR horizon. -/
def guardB (E : Ext) (I : Inputs) (tree : List TreeNode) (origin : ℕ) : Bool :=
  (decide (1 < origin) && decide (E.nrm (getPos tree origin - I.goal_) < I.acceptance_radius_))
    || decide (2 * I.max_sensor_range_ ≤ E.nrm (getPos tree origin - I.position_))

/-- The deduplication scan of lines 104-112: some existing node lies within
the 0.2 dedup radius of position p (the break makes only existence
observable). -/
def hasCloseNode (E : Ext) (tree : List TreeNode) (p : Vec3) : Bool :=
  tree.any fun n => decide (E.nrm (n.getPosition - p) < 1/5)

/-- Lines 99-121 for one candidate: simulate the rotated direction from the
origin state, discard the terminal state if it deduplicates against an
existing node, otherwise append a node and set its heuristic and total
score (h read back from the freshly pushed node, the A-star update of
line 118 reading the origin entry of the grown arena). -/
def addCandidate (E : Ext) (I : Inputs) (limits : simulation_limits) (origin : ℕ)
    (tree : List TreeNode) (cand : Vec3) : List TreeNode :=
  let state := (tree.getD origin default).state
  let term := E.simEnd limits state (1/20) (E.rot cand) I.tree_node_duration_
  if hasCloseNode E tree term.position then tree
  else
    let n0 := mkTreeNode origin term (E.rot cand)
    let h := treeHeuristicFunction E I (tree ++ [n0]) ((tree ++ [n0]).length - 1)
    let f := ((tree ++ [n0]).getD origin default).total_cost_
               - ((tree ++ [n0]).getD origin default).heuristic_
               + E.cost { n0 with heuristic_ := h } I.goal_ + h
    tree ++ [{ n0 with heuristic_ := h, total_cost_ := f }]

/-- Line 125: tree_[origin].closed_ = true (no-op past the end, as the
index is always in range in the source). -/
def closeAt (tree : List TreeNode) (i : ℕ) : List TreeNode :=
  tree.set i { tree.getD i default with closed_ := true }

/-- One step of the minimal-cost scan of lines 128-136; the accumulator
holds (minimal_cost, origin), with none standing for the FLT_MAX
sentinel no finite score has reached yet. -/
def scanStep (tree : List TreeNode) (acc : Option ℚ × ℕ) (i : ℕ) : Option ℚ × ℕ :=
  let n := tree.getD i default
  if n.closed_ then acc
  else
    match acc.1 with
    | none => (some n.total_cost_, i)
    | some m => if n.total_cost_ < m then (some n.total_cost_, i) else acc

/-- Lines 127-136: linear scan over the whole arena for the non-closed node
of strictly smallest total score; origin is left unchanged when every node
is closed. -/
def selectOrigin (tree : List TreeNode) (origin0 : ℕ) : ℕ :=
  ((List.range tree.length).foldl (scanStep tree) (none, origin0)).2

/-- One iteration of the while loop (lines 72-142): compute the adjusted
limits, take the goal/horizon branch if the guard holds, otherwise expand
all candidates, close the origin, rescan for the next origin and apply the
stuck check tree_.size() &lt;= 1. -/
def stepBody (E : Ext) (I : Inputs) (s : LoopState) : LoopState :=
  let limits := adjustedLimits E I (s.tree.getD s.origin default).state
  if guardB E I s.tree s.origin then
    { tree := s.tree ++ [mkTreeNode s.origin (simStateAt 0 I.goal_)
                (I.goal_ - getPos s.tree s.origin)]
      closed_set := s.closed_set ++ [s.origin, s.tree.length]
      origin := s.origin
      has_reached_goal := true }
  else
    let tree1 := candidates.foldl (addCandidate E I limits s.origin) s.tree
    let tree2 := closeAt tree1 s.origin
    { tree := tree2
      closed_set := s.closed_set ++ [s.origin]
      origin := selectOrigin tree2 s.origin
      has_reached_goal := decide (tree2.length ≤ 1) }

/-- Lines 59-70: clear the arena and closed set and seed the root from the
current position and velocity, zero acceleration and the current time, with
setCosts(h(root), h(root)). -/
def initState (E : Ext) (I : Inputs) : LoopState :=
  let start_state : simulation_state :=
    { position := I.position_, velocity := I.velocity_,
      acceleration := Vec3.zero, time := E.now }
  let tree0 := [mkTreeNode 0 start_state Vec3.zero]
  { tree := [(mkTreeNode 0 start_state Vec3.zero).setCosts
      (treeHeuristicFunction E I tree0 0) (treeHeuristicFunction E I tree0 0)]
    closed_set := []
    origin := 0
    has_reached_goal := false }

/-- The while loop of lines 72-142 with explicit fuel: run the body until
has_reached_goal is set or the fuel runs out. -/
def run (E : Ext) (I : Inputs) : ℕ → LoopState → LoopState
  | 0, s => s
  | n + 1, s => if s.has_reached_goal then s else run E I n (stepBody E I s)

/-- The parent walk of lines 147-150, with fuel: while tree_end &gt; 0, push
the setpoint and follow the parent index. -/
def walkSetpoints (tree : List TreeNode) : ℕ → ℕ → List Vec3
  | _, 0 => []
  | 0, _ + 1 => []
  | fuel + 1, e + 1 =>
      (tree.getD (e + 1) default).getSetpoint ::
        walkSetpoints tree fuel (tree.getD (e + 1) default).origin_

/-- Lines 144-152: the extracted setpoint path, the parent walk from the
final origin followed by the root setpoint. -/
def extractPath (tree : List TreeNode) (origin : ℕ) : List Vec3 :=
  walkSetpoints tree tree.length origin ++ [(tree.getD 0 default).getSetpoint]

/-- size_t subtraction by 2 (line 153 computes path_node_setpoints_.size() - 2
in 64-bit unsigned arithmetic). -/
def sizeSub2 (n : ℕ) : ℕ := (n + (2 ^ 64 - 2)) % 2 ^ 64

/-- Lines 153-155: the guard (size() - 2) &gt;= 0 evaluated in size_t
arithmetic, then the read of entry size() - 2; the vector read is modelled
as an option, none when the index is out of range (undefined behavior in
the source). -/
def starting_direction (path : List Vec3) : Option Vec3 :=
  if 0 ≤ sizeSub2 path.length then path.get? (sizeSub2 path.length) else none

/-- StarPlanner::buildLookAheadTree (lines 47-156) end to end, with fuel for
the while loop: the final loop state, the extracted setpoint path and the
starting direction. -/
structure BuildResult where
  path_node_setpoints_ : List Vec3
  starting_direction_ : Option Vec3
  final : LoopState

def buildLookAheadTree (E : Ext) (I : Inputs) (fuel : ℕ) : BuildResult :=
  let s := run E I fuel (initState E I)
  let path := extractPath s.tree s.origin
  { path_node_setpoints_ := path
    starting_direction_ := starting_direction path
    final := s }

/-!
Concrete deterministic behaviors of the external collaborators, used to
evaluate the model on explicit inputs. All positions arising in these runs
are axis-aligned, where the L1 norm used below agrees with the Euclidean
norm of the source.
-/

/-- The L1 norm, a concrete computable instance of the abstract norm; on
the axis-aligned vectors of the concrete runs below it coincides with the
Euclidean norm. -/
def nrmL1 (v : Vec3) : ℚ := |v.x| + |v.y| + |v.z|

/-- External behavior for the zero-motion scenario: the trajectory
simulator returns its start state unchanged, the cost evaluator returns 0,
the braking bound is the distance itself, the orientation is the
identity. -/
def extStuck : Ext :=
  { nrm := nrmL1, nrm2 := fun a b => |a| + |b|, rot := id,
    brake := fun _ _ d => d,
    simEnd := fun _ st _ _ _ => st,
    cost := fun _ _ => 0, now := 0 }

/-- Planner inputs for the zero-motion scenario: start at the origin,
goal 10 units away, acceptance radius 1/2, max sensor range 1. -/
def inpStuck : Inputs :=
  { position_ := ⟨0, 0, 0⟩, velocity_ := ⟨0, 0, 0⟩, goal_ := ⟨10, 0, 0⟩,
    lims_ := ⟨1, -1, 3, 2, 1⟩,
    acceptance_radius_ := 1/2, max_sensor_range_ := 1,
    tree_node_duration_ := 1, tree_heuristic_weight_ := 1 }

/-- External behavior whose trajectory simulator ends every trajectory at
the fixed point (5,0,0) regardless of start state and direction. -/
def extConst : Ext :=
  { nrm := nrmL1, nrm2 := fun a b => |a| + |b|, rot := id,
    brake := fun _ _ d => d,
    simEnd := fun _ _ _ _ _ =>
      { position := ⟨5, 0, 0⟩, velocity := Vec3.zero,
        acceleration := Vec3.zero, time := 0 },
    cost := fun _ _ => 0, now := 0 }

/-- Planner inputs for the fixed-point scenario: goal 50 units away,
acceptance radius 1/2, max sensor range 100 — the goal is never reached
and the horizon is never crossed. -/
def inpConst : Inputs :=
  { position_ := ⟨0, 0, 0⟩, velocity_ := ⟨0, 0, 0⟩, goal_ := ⟨50, 0, 0⟩,
    lims_ := ⟨1, -1, 3, 2, 1⟩,
    acceptance_radius_ := 1/2, max_sensor_range_ := 100,
    tree_node_duration_ := 1, tree_heuristic_weight_ := 1 }

/-- Planner inputs with max sensor range 0, making the horizon disjunct of
the guard hold already at the root. -/
def inpHoriz : Inputs :=
  { position_ := ⟨0, 0, 0⟩, velocity_ := ⟨0, 0, 0⟩, goal_ := ⟨10, 0, 0⟩,
    lims_ := ⟨1, -1, 3, 2, 1⟩,
    acceptance_radius_ := 1/2, max_sensor_range_ := 0,
    tree_node_duration_ := 1, tree_heuristic_weight_ := 1 }

/-- Equality of every TreeNode field except the closed flag. -/
def sameCore (a b : TreeNode) : Prop :=
  a.origin_ = b.origin_ ∧ a.state = b.state ∧ a.setpoint = b.setpoint ∧
    a.heuristic_ = b.heuristic_ ∧ a.total_cost_ = b.total_cost_

/-- The relation of claim C3 for a node appended while expanding origin o
of arena t0. -/
def NewNodeRel (E : Ext) (I : Inputs) (o : ℕ) (t0 : List TreeNode)
    (nd : TreeNode) : Prop :=
  nd.origin_ = o ∧ nd.closed_ = false ∧
  nd.heuristic_ = E.nrm (I.goal_ - nd.getPosition) * I.tree_heuristic_weight_ ∧
  nd.total_cost_ = (t0.getD o default).total_cost_ - (t0.getD o default).heuristic_
      + E.cost { nd with total_cost_ := 0, closed_ := false } I.goal_ + nd.heuristic_

/-- The arena after the expansion branch of one iteration: all candidates
folded in, then the origin closed. -/
def expandTree (E : Ext) (I : Inputs) (s : LoopState) : List TreeNode :=
  closeAt
    (List.foldl
      (addCandidate E I (adjustedLimits E I ((s.tree.getD s.origin default).state)) s.origin)
      s.tree candidates)
    s.origin

def WF (s : LoopState) : Prop :=
  0 < s.tree.length ∧ s.origin < s.tree.length ∧
  (s.tree.getD 0 default).origin_ = 0 ∧
  ∀ j, 0 < j → j < s.tree.length → (s.tree.getD j default).origin_ < j

/-- Every later node of the arena lies at least the dedup radius 0.2 from
every earlier one. -/
def PairwiseFar (E : Ext) (tree : List TreeNode) : Prop :=
  ∀ i j, i < j → j < tree.length →
    1/5 ≤ E.nrm ((tree.getD i default).getPosition - (tree.getD j default).getPosition)

/-- The run-level dedup statement: either the whole arena is pairwise
far, or the loop has terminated and the arena without its last entry (the
goal-branch node) is pairwise far. -/
def TreeOk (E : Ext) (s : LoopState) : Prop :=
  PairwiseFar E s.tree ∨
    (s.has_reached_goal = true ∧ PairwiseFar E s.tree.dropLast)

/-- Invariant of the scan after the first k indices: either every index
seen so far was closed and the accumulator is untouched, or the
accumulator holds the earliest open index realizing the strict minimum of
the open scores seen so far. -/
def ScanInv (t : List TreeNode) (o k : ℕ) (acc : Option ℚ × ℕ) : Prop :=
  (acc = (none, o) ∧ ∀ i, i < k → (t.getD i default).closed_ = true) ∨
  (∃ r, r < k ∧ acc = (some (t.getD r default).total_cost_, r) ∧
    (t.getD r default).closed_ = false ∧
    (∀ i, i < k → (t.getD i default).closed_ = false →
      (t.getD r default).total_cost_ ≤ (t.getD i default).total_cost_) ∧
    (∀ i, i < r → (t.getD i default).closed_ = false →
      (t.getD r default).total_cost_ < (t.getD i default).total_cost_))

/-!
Basic lemmas about the loop runner.
-/

theorem run_of_reached (E : Ext) (I : Inputs) :
    ∀ (n : ℕ) (s : LoopState), s.has_reached_goal = true → run E I n s = s
  | 0, _, _ => rfl
  | n + 1, s, h => by simp [run, h]

theorem run_add (E : Ext) (I : Inputs) (m n : ℕ) (s : LoopState) :
    run E I (m + n) s = run E I n (run E I m s) := by
  induction m generalizing s with
  | zero => simp [run, Nat.zero_add]
  | succ m ih =>
      rcases hb : s.has_reached_goal with _ | _
      · have he : m + 1 + n = m + n + 1 := by omega
        rw [he]
        show run E I (m + n + 1) s = run E I n (run E I (m + 1) s)
        simp only [run, hb, Bool.false_eq_true, if_false]
        exact ih (stepBody E I s)
      · rw [run_of_reached E I _ s hb, run_of_reached E I _ s hb,
          run_of_reached E I _ s hb]

/-!
Prefix and arena-entry lemmas: the expansion loop only appends to the
arena and flips closed flags of existing entries.
-/

theorem getD_of_pref {l₁ l₂ : List TreeNode} (h : l₁ <+: l₂) {i : ℕ}
    (hi : i < l₁.length) (d : TreeNode) : l₂.getD i d = l₁.getD i d := by
  obtain ⟨t, rfl⟩ := h
  rw [List.getD_eq_getElem?_getD, List.getD_eq_getElem?_getD,
    List.getElem?_append, if_pos hi]

theorem getD_append_last (l : List TreeNode) (n : TreeNode) (d : TreeNode) :
    (l ++ [n]).getD l.length d = n := by
  rw [List.getD_eq_getElem?_getD, List.getElem?_append,
    if_neg (by omega)]
  simp

theorem addCandidate_pref (E : Ext) (I : Inputs) (L : simulation_limits)
    (o : ℕ) (t : List TreeNode) (c : Vec3) : t <+: addCandidate E I L o t c := by
  rw [addCandidate]
  dsimp only
  split
  · exact List.prefix_refl t
  · exact List.prefix_append t _

theorem foldl_addCandidate_pref (E : Ext) (I : Inputs) (L : simulation_limits)
    (o : ℕ) : ∀ (l : List Vec3) (t : List TreeNode),
    t <+: List.foldl (addCandidate E I L o) t l
  | [], t => List.prefix_refl t
  | c :: l, t =>
      (addCandidate_pref E I L o t c).trans
        (foldl_addCandidate_pref E I L o l (addCandidate E I L o t c))

theorem closeAt_length (t : List TreeNode) (i : ℕ) :
    (closeAt t i).length = t.length := List.length_set t i _

theorem closeAt_getD_ne (t : List TreeNode) (i j : ℕ) (d : TreeNode)
    (h : j ≠ i) : (closeAt t i).getD j d = t.getD j d := by
  rw [closeAt, List.getD_eq_getElem?_getD, List.getElem?_set,
    if_neg (fun hh => h hh.symm)]
  exact (List.getD_eq_getElem?_getD t j d).symm

theorem closeAt_getD_self (t : List TreeNode) (i : ℕ) (hi : i < t.length) :
    (closeAt t i).getD i default = { t.getD i default with closed_ := true } := by
  rw [closeAt, List.getD_eq_getElem?_getD, List.getElem?_set, if_pos rfl,
    if_pos hi]
  rfl

theorem sameCore_refl (a : TreeNode) : sameCore a a :=
  ⟨rfl, rfl, rfl, rfl, rfl⟩

theorem sameCore_of_eq {a b : TreeNode} (h : a = b) : sameCore a b := by
  subst h; exact sameCore_refl a

theorem sameCore_trans {a b c : TreeNode} (h₁ : sameCore a b)
    (h₂ : sameCore b c) : sameCore a c :=
  ⟨h₁.1.trans h₂.1, h₁.2.1.trans h₂.2.1, h₁.2.2.1.trans h₂.2.2.1,
    h₁.2.2.2.1.trans h₂.2.2.2.1, h₁.2.2.2.2.trans h₂.2.2.2.2⟩

theorem sameCore_close (a : TreeNode) : sameCore a { a with closed_ := true } :=
  ⟨rfl, rfl, rfl, rfl, rfl⟩

theorem withZero_eq (a : TreeNode) (h : a.closed_ = false) :
    ({ a with total_cost_ := 0, closed_ := false } : TreeNode)
      = { a with total_cost_ := 0 } := by
  cases a
  simp only at h
  subst h
  rfl

/-!
Characterization of one candidate insertion (lines 99-121): either the
candidate deduplicates against an existing node and the arena is
unchanged, or exactly one node is appended, carrying the simulated
terminal state, the rotated setpoint, the parent index, the heuristic of
its own position, and the A-star total score computed from the origin
entry and the cost evaluator; the appended position is at least the dedup
radius away from every prior node.
-/

theorem addCandidate_spec (E : Ext) (I : Inputs) (L : simulation_limits)
    (o : ℕ) (t : List TreeNode) (c : Vec3) (ho : o < t.length) :
    addCandidate E I L o t c = t ∨
    ∃ nd : TreeNode,
      addCandidate E I L o t c = t ++ [nd] ∧
      nd.origin_ = o ∧ nd.closed_ = false ∧
      nd.state = E.simEnd L (t.getD o default).state (1/20) (E.rot c)
        I.tree_node_duration_ ∧
      nd.setpoint = E.rot c ∧
      nd.heuristic_ = E.nrm (I.goal_ - nd.getPosition) * I.tree_heuristic_weight_ ∧
      nd.total_cost_ = (t.getD o default).total_cost_ - (t.getD o default).heuristic_
          + E.cost { nd with total_cost_ := 0 } I.goal_ + nd.heuristic_ ∧
      hasCloseNode E t nd.getPosition = false := by
  rw [addCandidate]
  dsimp only
  split
  · exact Or.inl rfl
  · next hclose =>
    right
    refine ⟨_, rfl, rfl, rfl, rfl, rfl, ?_, ?_, ?_⟩
    · show treeHeuristicFunction E I _ _ = _
      rw [treeHeuristicFunction,
        show ∀ n0 : TreeNode, (t ++ [n0]).length - 1 = t.length from
          fun _ => by simp,
        getD_append_last]
      rfl
    · show _ - _ + _ + _ = _
      rw [getD_of_pref (List.prefix_append t _) ho default]
      rfl
    · simpa using hclose

theorem foldl_addCandidate_new (E : Ext) (I : Inputs) (L : simulation_limits)
    (o : ℕ) (t0 : List TreeNode) (ho : o < t0.length) :
    ∀ (l : List Vec3) (t : List TreeNode), t0 <+: t →
    (∀ j, t0.length ≤ j → j < t.length → NewNodeRel E I o t0 (t.getD j default)) →
    ∀ j, t0.length ≤ j → j < (List.foldl (addCandidate E I L o) t l).length →
      NewNodeRel E I o t0
        ((List.foldl (addCandidate E I L o) t l).getD j default)
  | [], _, _, hrel, _, h1, h2 => hrel _ h1 h2
  | c :: l, t, hpre, hrel, j, h1, h2 => by
      have hot : o < t.length := lt_of_lt_of_le ho hpre.length_le
      have hnext : ∀ j, t0.length ≤ j → j < (addCandidate E I L o t c).length →
          NewNodeRel E I o t0 ((addCandidate E I L o t c).getD j default) := by
        rcases addCandidate_spec E I L o t c hot with heq | ⟨nd, heq, hor, hcl, _, _, hh, hf, _⟩
        · rw [heq]; exact hrel
        · rw [heq]
          intro j hj1 hj2
          rcases lt_or_ge j t.length with hj | hj
          · rw [getD_of_pref (List.prefix_append t [nd]) hj default]
            exact hrel j hj1 hj
          · have hjeq : j = t.length := by
              have := List.length_append t [nd]
              simp only [List.length_singleton] at this
              omega
            subst hjeq
            rw [getD_append_last]
            refine ⟨hor, hcl, hh, ?_⟩
            rw [hf, getD_of_pref hpre ho default, withZero_eq nd hcl]
      exact foldl_addCandidate_new E I L o t0 ho l (addCandidate E I L o t c)
        (hpre.trans (addCandidate_pref E I L o t c)) hnext j h1 h2

/-!
Unfolded forms of one loop iteration, by guard value.
-/

theorem stepGuard_tree (E : Ext) (I : Inputs) (s : LoopState)
    (hg : guardB E I s.tree s.origin = true) :
    (stepBody E I s).tree = s.tree ++ [mkTreeNode s.origin (simStateAt 0 I.goal_)
      (I.goal_ - getPos s.tree s.origin)] := by
  rw [stepBody]
  simp only [hg, if_true]

theorem stepGuard_closed_set (E : Ext) (I : Inputs) (s : LoopState)
    (hg : guardB E I s.tree s.origin = true) :
    (stepBody E I s).closed_set = s.closed_set ++ [s.origin, s.tree.length] := by
  rw [stepBody]
  simp only [hg, if_true]

theorem stepGuard_origin (E : Ext) (I : Inputs) (s : LoopState)
    (hg : guardB E I s.tree s.origin = true) :
    (stepBody E I s).origin = s.origin := by
  rw [stepBody]
  simp only [hg, if_true]

theorem stepGuard_reached (E : Ext) (I : Inputs) (s : LoopState)
    (hg : guardB E I s.tree s.origin = true) :
    (stepBody E I s).has_reached_goal = true := by
  rw [stepBody]
  simp only [hg, if_true]

theorem stepExpand_tree (E : Ext) (I : Inputs) (s : LoopState)
    (hg : guardB E I s.tree s.origin = false) :
    (stepBody E I s).tree = expandTree E I s := by
  rw [stepBody]
  simp only [hg, Bool.false_eq_true, if_false]
  rfl

theorem stepExpand_closed_set (E : Ext) (I : Inputs) (s : LoopState)
    (hg : guardB E I s.tree s.origin = false) :
    (stepBody E I s).closed_set = s.closed_set ++ [s.origin] := by
  rw [stepBody]
  simp only [hg, Bool.false_eq_true, if_false]

theorem stepExpand_origin (E : Ext) (I : Inputs) (s : LoopState)
    (hg : guardB E I s.tree s.origin = false) :
    (stepBody E I s).origin = selectOrigin (expandTree E I s) s.origin := by
  rw [stepBody]
  simp only [hg, Bool.false_eq_true, if_false]
  rfl

theorem stepExpand_reached (E : Ext) (I : Inputs) (s : LoopState)
    (hg : guardB E I s.tree s.origin = false) :
    (stepBody E I s).has_reached_goal = decide ((expandTree E I s).length ≤ 1) := by
  rw [stepBody]
  simp only [hg, Bool.false_eq_true, if_false]
  rfl

theorem expandTree_length_ge (E : Ext) (I : Inputs) (s : LoopState) :
    s.tree.length ≤ (expandTree E I s).length := by
  rw [expandTree, closeAt_length]
  exact (foldl_addCandidate_pref E I _ s.origin candidates s.tree).length_le

theorem stepBody_length_mono (E : Ext) (I : Inputs) (s : LoopState) :
    s.tree.length ≤ (stepBody E I s).tree.length := by
  rcases hg : guardB E I s.tree s.origin with _ | _
  · rw [stepExpand_tree E I s hg]
    exact expandTree_length_ge E I s
  · rw [stepGuard_tree E I s hg]
    simp

theorem run_length_mono (E : Ext) (I : Inputs) :
    ∀ (n : ℕ) (s : LoopState), s.tree.length ≤ (run E I n s).tree.length
  | 0, _ => le_refl _
  | n + 1, s => by
      rcases hb : s.has_reached_goal with _ | _
      · simp only [run, hb, Bool.false_eq_true, if_false]
        exact (stepBody_length_mono E I s).trans
          (run_length_mono E I n (stepBody E I s))
      · rw [run_of_reached E I _ s hb]

theorem stepBody_core (E : Ext) (I : Inputs) (s : LoopState) (i : ℕ)
    (hi : i < s.tree.length) :
    sameCore (s.tree.getD i default) ((stepBody E I s).tree.getD i default) := by
  rcases hg : guardB E I s.tree s.origin with _ | _
  · rw [stepExpand_tree E I s hg]
    have hpre := foldl_addCandidate_pref E I
      (adjustedLimits E I ((s.tree.getD s.origin default).state)) s.origin
      candidates s.tree
    rw [expandTree]
    by_cases hio : i = s.origin
    · subst hio
      rw [closeAt_getD_self _ s.origin (lt_of_lt_of_le hi hpre.length_le),
        getD_of_pref hpre hi default]
      exact sameCore_close _
    · rw [closeAt_getD_ne _ _ _ _ hio, getD_of_pref hpre hi default]
      exact sameCore_refl _
  · rw [stepGuard_tree E I s hg, getD_of_pref (List.prefix_append s.tree _) hi default]
    exact sameCore_refl _

theorem run_core (E : Ext) (I : Inputs) :
    ∀ (n : ℕ) (s : LoopState) (i : ℕ), i < s.tree.length →
      sameCore (s.tree.getD i default) ((run E I n s).tree.getD i default)
  | 0, _, _, _ => sameCore_refl _
  | n + 1, s, i, hi => by
      rcases hb : s.has_reached_goal with _ | _
      · simp only [run, hb, Bool.false_eq_true, if_false]
        exact sameCore_trans (stepBody_core E I s i hi)
          (run_core E I n (stepBody E I s) i
            (lt_of_lt_of_le hi (stepBody_length_mono E I s)))
      · rw [run_of_reached E I _ s hb]
        exact sameCore_refl _

/-!
The scan of lines 127-136 never leaves the arena.
-/

theorem scanStep_snd (t : List TreeNode) (acc : Option ℚ × ℕ) (i : ℕ) :
    (scanStep t acc i).2 = acc.2 ∨ (scanStep t acc i).2 = i := by
  rw [scanStep]
  split
  · exact Or.inl rfl
  · split
    · exact Or.inr rfl
    · split
      · exact Or.inr rfl
      · exact Or.inl rfl

theorem scan_snd_lt (t : List TreeNode) :
    ∀ (l : List ℕ) (acc : Option ℚ × ℕ), acc.2 < t.length →
      (∀ i ∈ l, i < t.length) → (l.foldl (scanStep t) acc).2 < t.length
  | [], _, h, _ => h
  | i :: l, acc, h, hl => by
      apply scan_snd_lt t l (scanStep t acc i)
      · rcases scanStep_snd t acc i with he | he
        · rw [he]; exact h
        · rw [he]; exact hl i (List.mem_cons_self i l)
      · exact fun j hj => hl j (List.mem_cons_of_mem i hj)

theorem selectOrigin_lt (t : List TreeNode) (o : ℕ) (ho : o < t.length) :
    selectOrigin t o < t.length := by
  rw [selectOrigin]
  exact scan_snd_lt t (List.range t.length) (none, o) ho
    (fun i hi => List.mem_range.mp hi)

/-!
The structural well-formedness invariant of the loop state: nonempty
arena, origin in range, root parent pointing to itself, and every
non-root parent index strictly below its own index.
-/

theorem wf_init (E : Ext) (I : Inputs) : WF (initState E I) := by
  have h1 : (initState E I).tree.length = 1 := rfl
  have h2 : (initState E I).origin = 0 := rfl
  refine ⟨by omega, by omega, rfl, ?_⟩
  intro j hj1 hj2
  rw [h1] at hj2
  omega

theorem wf_step (E : Ext) (I : Inputs) (s : LoopState) (h : WF s) :
    WF (stepBody E I s) := by
  obtain ⟨h0, ho, hroot, hpar⟩ := h
  have hcore0 := stepBody_core E I s 0 h0
  rcases hg : guardB E I s.tree s.origin with _ | _
  · have hlen := expandTree_length_ge E I s
    refine ⟨?_, ?_, hcore0.1.symm.trans hroot, ?_⟩
    · rw [stepExpand_tree E I s hg]; omega
    · rw [stepExpand_tree E I s hg, stepExpand_origin E I s hg]
      exact selectOrigin_lt _ s.origin (lt_of_lt_of_le ho hlen)
    · intro j hj1 hj2
      rcases lt_or_ge j s.tree.length with hj | hj
      · exact lt_of_eq_of_lt (stepBody_core E I s j hj).1.symm (hpar j hj1 hj)
      · rw [stepExpand_tree E I s hg] at hj2 ⊢
        rw [expandTree] at hj2 ⊢
        rw [closeAt_getD_ne _ _ _ _ (by omega)]
        rw [closeAt_length] at hj2
        have hnew := foldl_addCandidate_new E I
          (adjustedLimits E I ((s.tree.getD s.origin default).state)) s.origin
          s.tree ho candidates s.tree (List.prefix_refl _)
          (fun j hj1 hj2 => absurd (lt_of_le_of_lt hj1 hj2) (lt_irrefl _)) j hj hj2
        exact lt_of_eq_of_lt hnew.1 (lt_of_lt_of_le ho hj)
  · refine ⟨?_, ?_, hcore0.1.symm.trans hroot, ?_⟩
    · rw [stepGuard_tree E I s hg]; simp
    · rw [stepGuard_tree E I s hg, stepGuard_origin E I s hg]; simp; omega
    · intro j hj1 hj2
      rw [stepGuard_tree E I s hg] at hj2
      simp only [List.length_append, List.length_singleton] at hj2
      rcases lt_or_ge j s.tree.length with hj | hj
      · exact lt_of_eq_of_lt (stepBody_core E I s j hj).1.symm (hpar j hj1 hj)
      · have hjeq : j = s.tree.length := by omega
        subst hjeq
        rw [stepGuard_tree E I s hg, getD_append_last]
        exact ho

theorem wf_run (E : Ext) (I : Inputs) :
    ∀ (n : ℕ) (s : LoopState), WF s → WF (run E I n s)
  | 0, _, h => h
  | n + 1, s, h => by
      rcases hb : s.has_reached_goal with _ | _
      · simp only [run, hb, Bool.false_eq_true, if_false]
        exact wf_run E I n (stepBody E I s) (wf_step E I s h)
      · rw [run_of_reached E I _ s hb]
        exact h

/-!
The deduplication invariant (claim C5): distinct arena entries lie at
least the 0.2 dedup radius apart, as measured the way line 107 measures
(earlier node minus later node).
-/

theorem pairwiseFar_addCandidate (E : Ext) (I : Inputs) (L : simulation_limits)
    (o : ℕ) (t : List TreeNode) (c : Vec3) (ho : o < t.length)
    (h : PairwiseFar E t) : PairwiseFar E (addCandidate E I L o t c) := by
  rcases addCandidate_spec E I L o t c ho with heq | ⟨nd, heq, _, _, _, _, _, _, hfar⟩
  · rw [heq]; exact h
  · rw [heq]
    intro i j hij hj
    have hlen : (t ++ [nd]).length = t.length + 1 := by simp
    rw [hlen] at hj
    rcases lt_or_ge j t.length with hjt | hjt
    · rw [getD_of_pref (List.prefix_append t [nd]) hjt default,
        getD_of_pref (List.prefix_append t [nd]) (lt_trans hij hjt) default]
      exact h i j hij hjt
    · have hjeq : j = t.length := by omega
      subst hjeq
      rw [getD_append_last, getD_of_pref (List.prefix_append t [nd]) hij default]
      rw [hasCloseNode] at hfar
      have hmem : t.getD i default ∈ t := by
        rw [List.getD_eq_getElem t default hij]
        exact List.getElem_mem hij
      have hni := (List.any_eq_false.mp hfar) (t.getD i default) hmem
      simp only [decide_eq_true_eq] at hni
      exact le_of_not_lt hni

theorem pairwiseFar_foldl (E : Ext) (I : Inputs) (L : simulation_limits) (o : ℕ) :
    ∀ (l : List Vec3) (t : List TreeNode), o < t.length → PairwiseFar E t →
      PairwiseFar E (List.foldl (addCandidate E I L o) t l)
  | [], _, _, h => h
  | c :: l, t, ho, h =>
      pairwiseFar_foldl E I L o l (addCandidate E I L o t c)
        (lt_of_lt_of_le ho (addCandidate_pref E I L o t c).length_le)
        (pairwiseFar_addCandidate E I L o t c ho h)

theorem closeAt_getPosition (t : List TreeNode) (k j : ℕ) :
    ((closeAt t k).getD j default).getPosition = (t.getD j default).getPosition := by
  by_cases hj : j = k
  · subst hj
    by_cases hk : j < t.length
    · rw [closeAt_getD_self t j hk]
      rfl
    · rw [closeAt, List.getD_eq_getElem?_getD, List.getElem?_set, if_pos rfl,
        if_neg hk, List.getD_eq_getElem?_getD,
        List.getElem?_eq_none (by omega : t.length ≤ j)]
  · rw [closeAt_getD_ne t k j default hj]

theorem pairwiseFar_closeAt (E : Ext) (t : List TreeNode) (k : ℕ)
    (h : PairwiseFar E t) : PairwiseFar E (closeAt t k) := by
  intro i j hij hj
  rw [closeAt_length] at hj
  rw [closeAt_getPosition, closeAt_getPosition]
  exact h i j hij hj

theorem treeOk_step (E : Ext) (I : Inputs) (s : LoopState)
    (ho : s.origin < s.tree.length) (h : PairwiseFar E s.tree) :
    TreeOk E (stepBody E I s) := by
  rcases hg : guardB E I s.tree s.origin with _ | _
  · left
    rw [stepExpand_tree E I s hg, expandTree]
    exact pairwiseFar_closeAt E _ s.origin
      (pairwiseFar_foldl E I _ s.origin candidates s.tree ho h)
  · right
    refine ⟨stepGuard_reached E I s hg, ?_⟩
    rw [stepGuard_tree E I s hg, List.dropLast_concat]
    exact h

theorem treeOk_run (E : Ext) (I : Inputs) :
    ∀ (n : ℕ) (s : LoopState), WF s → TreeOk E s → TreeOk E (run E I n s)
  | 0, _, _, ht => ht
  | n + 1, s, hwf, ht => by
      rcases hb : s.has_reached_goal with _ | _
      · simp only [run, hb, Bool.false_eq_true, if_false]
        refine treeOk_run E I n (stepBody E I s) (wf_step E I s hwf) ?_
        rcases ht with h | ⟨hr, _⟩
        · exact treeOk_step E I s hwf.2.1 h
        · rw [hb] at hr; exact absurd hr (by simp)
      · rw [run_of_reached E I _ s hb]
        exact ht

theorem pairwiseFar_init (E : Ext) (I : Inputs) : PairwiseFar E (initState E I).tree := by
  intro i j hij hj
  have h1 : (initState E I).tree.length = 1 := rfl
  omega

/-!
Behavior of the next-origin scan of lines 127-136 (claim C7): a stepwise
characterization of the fold over the arena indices.
-/

theorem scanStep_closed (t : List TreeNode) (acc : Option ℚ × ℕ) (i : ℕ)
    (hc : (t.getD i default).closed_ = true) : scanStep t acc i = acc := by
  rw [scanStep]
  simp only [hc, if_true]

theorem scanStep_none (t : List TreeNode) (o i : ℕ)
    (hc : (t.getD i default).closed_ = false) :
    scanStep t (none, o) i = (some (t.getD i default).total_cost_, i) := by
  rw [scanStep]
  simp only [hc, Bool.false_eq_true, if_false]

theorem scanStep_some_lt (t : List TreeNode) (m : ℚ) (r i : ℕ)
    (hc : (t.getD i default).closed_ = false)
    (hlt : (t.getD i default).total_cost_ < m) :
    scanStep t (some m, r) i = (some (t.getD i default).total_cost_, i) := by
  rw [scanStep]
  simp only [hc, Bool.false_eq_true, if_false]
  rw [if_pos hlt]

theorem scanStep_some_ge (t : List TreeNode) (m : ℚ) (r i : ℕ)
    (hc : (t.getD i default).closed_ = false)
    (hge : ¬(t.getD i default).total_cost_ < m) :
    scanStep t (some m, r) i = (some m, r) := by
  rw [scanStep]
  simp only [hc, Bool.false_eq_true, if_false]
  rw [if_neg hge]

theorem scan_inv (t : List TreeNode) (o : ℕ) :
    ∀ k, ScanInv t o k ((List.range k).foldl (scanStep t) (none, o))
  | 0 => Or.inl ⟨rfl, fun i hi => absurd hi (Nat.not_lt_zero i)⟩
  | k + 1 => by
      have ih := scan_inv t o k
      rw [List.range_succ, List.foldl_append]
      rcases ih with ⟨hacc, hall⟩ | ⟨r, hr, hacc, hopen, hmin, hstrict⟩
      · rw [hacc]
        rcases hc : (t.getD k default).closed_ with _ | _
        · right
          refine ⟨k, by omega, ?_, hc, ?_, ?_⟩
          · simp only [List.foldl_cons, List.foldl_nil]
            exact scanStep_none t o k hc
          · intro i hi hio
            rcases lt_or_ge i k with hik | hik
            · exact absurd (hall i hik) (by rw [hio]; exact Bool.false_ne_true)
            · have : i = k := by omega
              subst this; exact le_refl _
          · intro i hi hio
            exact absurd (hall i hi) (by rw [hio]; exact Bool.false_ne_true)
        · left
          refine ⟨?_, ?_⟩
          · simp only [List.foldl_cons, List.foldl_nil]
            exact scanStep_closed t (none, o) k hc
          · intro i hi
            rcases lt_or_ge i k with hik | hik
            · exact hall i hik
            · have : i = k := by omega
              subst this; exact hc
      · rw [hacc]
        simp only [List.foldl_cons, List.foldl_nil]
        rcases hc : (t.getD k default).closed_ with _ | _
        · rcases lt_or_ge (t.getD k default).total_cost_
            (t.getD r default).total_cost_ with hlt | hge
          · right
            refine ⟨k, by omega,
              scanStep_some_lt t _ r k hc hlt, hc, ?_, ?_⟩
            · intro i hi hio
              rcases lt_or_ge i k with hik | hik
              · exact le_of_lt (lt_of_lt_of_le hlt (hmin i hik hio))
              · have : i = k := by omega
                subst this; exact le_refl _
            · intro i hi hio
              exact lt_of_lt_of_le hlt (hmin i hi hio)
          · right
            refine ⟨r, by omega,
              scanStep_some_ge t _ r k hc (not_lt.mpr hge), hopen, ?_, hstrict⟩
            intro i hi hio
            rcases lt_or_ge i k with hik | hik
            · exact hmin i hik hio
            · have : i = k := by omega
              subst this; exact hge
        · right
          refine ⟨r, by omega, scanStep_closed t _ k hc, hopen, ?_, hstrict⟩
          intro i hi hio
          rcases lt_or_ge i k with hik | hik
          · exact hmin i hik hio
          · have : i = k := by omega
            subst this
            exact absurd hc (by rw [hio]; exact Bool.false_ne_true)

theorem selectOrigin_all_closed (t : List TreeNode) (o : ℕ)
    (h : ∀ i, i < t.length → (t.getD i default).closed_ = true) :
    selectOrigin t o = o := by
  rw [selectOrigin]
  rcases scan_inv t o t.length with ⟨hacc, _⟩ | ⟨r, hr, _, hopen, _, _⟩
  · rw [hacc]
  · exact absurd (h r hr) (by rw [hopen]; exact Bool.false_ne_true)

theorem selectOrigin_open (t : List TreeNode) (o k : ℕ) (hk : k < t.length)
    (hko : (t.getD k default).closed_ = false) :
    selectOrigin t o < t.length ∧
    (t.getD (selectOrigin t o) default).closed_ = false ∧
    (∀ i, i < t.length → (t.getD i default).closed_ = false →
      (t.getD (selectOrigin t o) default).total_cost_ ≤ (t.getD i default).total_cost_) ∧
    (∀ i, i < selectOrigin t o → (t.getD i default).closed_ = false →
      (t.getD (selectOrigin t o) default).total_cost_ < (t.getD i default).total_cost_) := by
  rw [selectOrigin]
  rcases scan_inv t o t.length with ⟨_, hall⟩ | ⟨r, hr, hacc, hopen, hmin, hstrict⟩
  · exact absurd (hall k hk) (by rw [hko]; exact Bool.false_ne_true)
  · rw [hacc]
    exact ⟨hr, hopen, hmin, hstrict⟩

/-!
Fixed-point helpers for a fully closed arena (claims C2 and C10).
-/

theorem node_close_id (a : TreeNode) (h : a.closed_ = true) :
    ({ a with closed_ := true } : TreeNode) = a := by
  cases a
  simp only at h
  subst h
  rfl

theorem closeAt_of_closed (t : List TreeNode) (i : ℕ)
    (hc : (t.getD i default).closed_ = true) : closeAt t i = t := by
  apply List.ext_getElem?
  intro j
  rw [closeAt, List.getElem?_set]
  by_cases hij : i = j
  · subst hij
    by_cases hi : i < t.length
    · rw [if_pos rfl, if_pos hi, List.getD_eq_getElem t default hi, node_close_id _ ?_,
        List.getElem?_eq_getElem hi]
      rw [← List.getD_eq_getElem t default hi]
      exact hc
    · rw [if_pos rfl, if_neg hi, List.getElem?_eq_none (by omega : t.length ≤ i)]
  · rw [if_neg hij]

theorem addCandidate_of_dup (E : Ext) (I : Inputs) (L : simulation_limits)
    (o : ℕ) (t : List TreeNode) (c : Vec3)
    (h : hasCloseNode E t
      (E.simEnd L (t.getD o default).state (1/20) (E.rot c) I.tree_node_duration_).position
        = true) :
    addCandidate E I L o t c = t := by
  rw [addCandidate]
  dsimp only
  rw [if_pos h]

theorem foldl_addCandidate_id (E : Ext) (I : Inputs) (L : simulation_limits)
    (o : ℕ) : ∀ (l : List Vec3) (t : List TreeNode),
    (∀ c ∈ l, hasCloseNode E t
      (E.simEnd L (t.getD o default).state (1/20) (E.rot c) I.tree_node_duration_).position
        = true) →
    List.foldl (addCandidate E I L o) t l = t
  | [], _, _ => rfl
  | c :: l, t, h => by
      have h1 : addCandidate E I L o t c = t :=
        addCandidate_of_dup E I L o t c (h c (List.mem_cons_self c l))
      rw [List.foldl_cons, h1]
      exact foldl_addCandidate_id E I L o l t
        (fun d hd => h d (List.mem_cons_of_mem c hd))

theorem walkSetpoints_zero (t : List TreeNode) (fuel : ℕ) :
    walkSetpoints t fuel 0 = [] := by
  cases fuel <;> rfl

/-!
A state whose arena is entirely closed, whose guard fails, and whose
candidates all deduplicate, is a fixed point of the loop body up to the
growing closed set — the loop then never exits (claim C2).
-/

theorem expandTree_id (E : Ext) (I : Inputs) (s : LoopState)
    (ho : s.origin < s.tree.length)
    (hcl : ∀ i, i < s.tree.length → (s.tree.getD i default).closed_ = true)
    (hdup : ∀ c ∈ candidates, hasCloseNode E s.tree
      (E.simEnd (adjustedLimits E I ((s.tree.getD s.origin default).state))
        (s.tree.getD s.origin default).state (1/20) (E.rot c)
        I.tree_node_duration_).position = true) :
    expandTree E I s = s.tree := by
  rw [expandTree, foldl_addCandidate_id E I _ s.origin candidates s.tree hdup,
    closeAt_of_closed s.tree s.origin (hcl s.origin ho)]

theorem noExit (E : Ext) (I : Inputs) :
    ∀ (n : ℕ) (s : LoopState),
    s.has_reached_goal = false →
    s.origin < s.tree.length →
    1 < s.tree.length →
    guardB E I s.tree s.origin = false →
    (∀ i, i < s.tree.length → (s.tree.getD i default).closed_ = true) →
    (∀ c ∈ candidates, hasCloseNode E s.tree
      (E.simEnd (adjustedLimits E I ((s.tree.getD s.origin default).state))
        (s.tree.getD s.origin default).state (1/20) (E.rot c)
        I.tree_node_duration_).position = true) →
    (run E I n s).has_reached_goal = false
  | 0, _, hnr, _, _, _, _, _ => hnr
  | n + 1, s, hnr, ho, hlen, hg, hcl, hdup => by
      have hexp : expandTree E I s = s.tree := expandTree_id E I s ho hcl hdup
      have htree : (stepBody E I s).tree = s.tree := by
        rw [stepExpand_tree E I s hg, hexp]
      have horig : (stepBody E I s).origin = s.origin := by
        rw [stepExpand_origin E I s hg, hexp]
        exact selectOrigin_all_closed s.tree s.origin hcl
      have hreach : (stepBody E I s).has_reached_goal = false := by
        rw [stepExpand_reached E I s hg, hexp, decide_eq_false_iff_not]
        omega
      simp only [run, hnr, Bool.false_eq_true, if_false]
      exact noExit E I n (stepBody E I s) hreach
        (by rw [horig, htree]; exact ho)
        (by rw [htree]; exact hlen)
        (by rw [htree, horig]; exact hg)
        (by rw [htree]; exact hcl)
        (by rw [htree, horig]; exact hdup)

/-!
The stuck exit (claims C2 and C10): if after an expansion iteration the
arena still holds at most one node, the iteration started from the
single-node arena, the origin is the root, and the extracted path has
exactly one entry.
-/

theorem stuck_step (E : Ext) (I : Inputs) (s : LoopState)
    (hg : guardB E I s.tree s.origin = false)
    (ho : s.origin < s.tree.length)
    (hstk : (stepBody E I s).tree.length ≤ 1) :
    s.tree.length = 1 ∧ (stepBody E I s).tree.length = 1 ∧
    (stepBody E I s).origin = 0 ∧
    extractPath (stepBody E I s).tree (stepBody E I s).origin
      = [((stepBody E I s).tree.getD 0 default).getSetpoint] := by
  have hmono := stepBody_length_mono E I s
  have h1 : s.tree.length = 1 := by omega
  have h2 : (stepBody E I s).tree.length = 1 := by omega
  have h3 : (stepBody E I s).origin = 0 := by
    rw [stepExpand_origin E I s hg]
    have := selectOrigin_lt (expandTree E I s) s.origin
      (lt_of_lt_of_le ho (expandTree_length_ge E I s))
    have hel : (expandTree E I s).length = (stepBody E I s).tree.length := by
      rw [stepExpand_tree E I s hg]
    omega
  refine ⟨h1, h2, h3, ?_⟩
  rw [h3, extractPath, walkSetpoints_zero, List.nil_append]

/-!
Claim theorems.
-/

/-- C8: in every loop iteration the limits handed to the trajectory
simulator equal the configured kinodynamic limits in every field except
max_xy_velocity_norm, which is the minimum of the braking bound for the
horizontal distance to goal, the braking bound for the max sensor range,
and the configured max horizontal speed; the expansion branch of the loop
body folds the candidates with exactly these adjusted limits, leaving the
stored lims_ untouched. -/
theorem C8_adjusted_limits (E : Ext) (I : Inputs) (st : simulation_state) :
    ((adjustedLimits E I st).max_jerk_norm = I.lims_.max_jerk_norm ∧
      (adjustedLimits E I st).max_acceleration_norm = I.lims_.max_acceleration_norm ∧
      (adjustedLimits E I st).max_z_velocity = I.lims_.max_z_velocity ∧
      (adjustedLimits E I st).min_z_velocity = I.lims_.min_z_velocity) ∧
    (adjustedLimits E I st).max_xy_velocity_norm =
      min (E.brake I.lims_.max_jerk_norm I.lims_.max_acceleration_norm
            (E.nrm2 (st.position.x - I.goal_.x) (st.position.y - I.goal_.y)))
        (min (E.brake I.lims_.max_jerk_norm I.lims_.max_acceleration_norm
            I.max_sensor_range_)
          I.lims_.max_xy_velocity_norm) ∧
    (∀ s : LoopState, guardB E I s.tree s.origin = false →
      (stepBody E I s).tree =
        closeAt (List.foldl (addCandidate E I
            (adjustedLimits E I ((s.tree.getD s.origin default).state)) s.origin)
          s.tree candidates) s.origin) := by
  refine ⟨⟨rfl, rfl, rfl, rfl⟩, ?_, ?_⟩
  · rw [adjustedLimits]
    exact min_assoc _ _ _
  · intro s hg
    rw [stepExpand_tree E I s hg]
    rfl

theorem C8_adjusted_limits_witness :
    guardB extConst inpConst (initState extConst inpConst).tree
      (initState extConst inpConst).origin = false ∧
    (stepBody extConst inpConst (initState extConst inpConst)).tree =
      closeAt (List.foldl (addCandidate extConst inpConst
          (adjustedLimits extConst inpConst
            (((initState extConst inpConst).tree.getD
              (initState extConst inpConst).origin default).state))
          (initState extConst inpConst).origin)
        (initState extConst inpConst).tree candidates)
        (initState extConst inpConst).origin :=
  ⟨by with_unfolding_all decide,
    (C8_adjusted_limits extConst inpConst (simStateAt 0 ⟨0, 0, 0⟩)).2.2
      (initState extConst inpConst) (by with_unfolding_all decide)⟩

/-- C4: the guard of lines 89-90 evaluates as (origin &gt; 1 AND close to
goal) OR horizon: the horizon disjunct alone forces the guard regardless
of index and goal distance, the goal disjunct never fires at origin index
0 or 1, and a true guard appends exactly one terminal node with parent =
origin, state at the goal, setpoint = goal - origin position, and sets
has_reached_goal. -/
theorem C4_guard_eval (E : Ext) (I : Inputs) (s : LoopState) :
    (guardB E I s.tree s.origin = true ↔
      ((1 < s.origin ∧ E.nrm (getPos s.tree s.origin - I.goal_) < I.acceptance_radius_) ∨
        2 * I.max_sensor_range_ ≤ E.nrm (getPos s.tree s.origin - I.position_))) ∧
    (2 * I.max_sensor_range_ ≤ E.nrm (getPos s.tree s.origin - I.position_) →
      guardB E I s.tree s.origin = true) ∧
    (s.origin ≤ 1 → E.nrm (getPos s.tree s.origin - I.position_) < 2 * I.max_sensor_range_ →
      guardB E I s.tree s.origin = false) ∧
    (guardB E I s.tree s.origin = true →
      (stepBody E I s).tree = s.tree ++ [mkTreeNode s.origin (simStateAt 0 I.goal_)
        (I.goal_ - getPos s.tree s.origin)] ∧
      (stepBody E I s).origin = s.origin ∧
      (stepBody E I s).has_reached_goal = true) := by
  have hiff : guardB E I s.tree s.origin = true ↔
      ((1 < s.origin ∧ E.nrm (getPos s.tree s.origin - I.goal_) < I.acceptance_radius_) ∨
        2 * I.max_sensor_range_ ≤ E.nrm (getPos s.tree s.origin - I.position_)) := by
    simp [guardB]
  refine ⟨hiff, fun h => hiff.mpr (Or.inr h), ?_, ?_⟩
  · intro h1 h2
    rw [Bool.eq_false_iff]
    intro htrue
    rcases hiff.mp htrue with ⟨h3, _⟩ | h3
    · omega
    · exact absurd h3 (not_le.mpr h2)
  · intro hg
    exact ⟨stepGuard_tree E I s hg, stepGuard_origin E I s hg,
      stepGuard_reached E I s hg⟩

theorem C4_guard_eval_witness :
    2 * inpHoriz.max_sensor_range_ ≤
      extStuck.nrm (getPos (initState extStuck inpHoriz).tree
        (initState extStuck inpHoriz).origin - inpHoriz.position_) ∧
    guardB extStuck inpHoriz (initState extStuck inpHoriz).tree
      (initState extStuck inpHoriz).origin = true ∧
    (stepBody extStuck inpHoriz (initState extStuck inpHoriz)).tree
      = (initState extStuck inpHoriz).tree ++
          [mkTreeNode (initState extStuck inpHoriz).origin
            (simStateAt 0 inpHoriz.goal_)
            (inpHoriz.goal_ - getPos (initState extStuck inpHoriz).tree
              (initState extStuck inpHoriz).origin)] :=
  ⟨by with_unfolding_all decide,
    (C4_guard_eval extStuck inpHoriz (initState extStuck inpHoriz)).2.1
      (by with_unfolding_all decide),
    ((C4_guard_eval extStuck inpHoriz (initState extStuck inpHoriz)).2.2.2
      (by with_unfolding_all decide)).1⟩

/-- C7: the next-origin scan over the whole arena returns the untouched
origin when every node is closed; otherwise it returns an open (non-closed)
index of the arena whose total score is minimal among open nodes, and
strictly below the score of every open node of smaller index (earliest
index wins ties); the expansion branch of the loop body assigns exactly
this scan result as the next origin. -/
theorem C7_next_origin (t : List TreeNode) (o : ℕ) :
    ((∀ i, i < t.length → (t.getD i default).closed_ = true) →
      selectOrigin t o = o) ∧
    (∀ k, k < t.length → (t.getD k default).closed_ = false →
      selectOrigin t o < t.length ∧
      (t.getD (selectOrigin t o) default).closed_ = false ∧
      (∀ i, i < t.length → (t.getD i default).closed_ = false →
        (t.getD (selectOrigin t o) default).total_cost_
          ≤ (t.getD i default).total_cost_) ∧
      (∀ i, i < selectOrigin t o → (t.getD i default).closed_ = false →
        (t.getD (selectOrigin t o) default).total_cost_
          < (t.getD i default).total_cost_)) ∧
    (∀ (E : Ext) (I : Inputs) (s : LoopState),
      guardB E I s.tree s.origin = false →
      (stepBody E I s).origin = selectOrigin (expandTree E I s) s.origin) :=
  ⟨fun h => selectOrigin_all_closed t o h,
    fun k hk hko => selectOrigin_open t o k hk hko,
    fun E I s hg => stepExpand_origin E I s hg⟩

theorem C7_next_origin_witness :
    1 < (run extConst inpConst 1 (initState extConst inpConst)).tree.length ∧
    ((run extConst inpConst 1 (initState extConst inpConst)).tree.getD 1
      default).closed_ = false ∧
    selectOrigin (run extConst inpConst 1 (initState extConst inpConst)).tree 0
      < (run extConst inpConst 1 (initState extConst inpConst)).tree.length :=
  ⟨by with_unfolding_all decide, by with_unfolding_all decide,
    ((C7_next_origin (run extConst inpConst 1 (initState extConst inpConst)).tree 0).2.1
      1 (by with_unfolding_all decide) (by with_unfolding_all decide)).1⟩

theorem run_one (E : Ext) (I : Inputs) (s : LoopState) :
    run E I 1 s = if s.has_reached_goal then s else stepBody E I s := rfl

theorem reaches_root (t : List TreeNode)
    (hpar : ∀ j, 0 < j → j < t.length → (t.getD j default).origin_ < j) :
    ∀ j, j < t.length →
      ∃ k, (fun m => (t.getD m default).origin_)^[k] j = 0 := by
  intro j
  induction j using Nat.strong_induction_on with
  | _ j ih =>
    intro hj
    rcases Nat.eq_zero_or_pos j with h0 | hpos
    · subst h0
      exact ⟨0, rfl⟩
    · have hlt := hpar j hpos hj
      obtain ⟨k, hk⟩ := ih _ hlt (lt_trans hlt hj)
      refine ⟨k + 1, ?_⟩
      rw [Function.iterate_succ_apply]
      exact hk

/-- C6: along every run from the initial state the arena only grows, every
entry of the arena keeps its parent, state, setpoint and scores once
inserted (only the closed flag can flip), every non-root entry has parent
index strictly below its own index, and iterating the parent map from any
entry reaches the root. -/
theorem C6_append_only (E : Ext) (I : Inputs) (n : ℕ) :
    ((run E I n (initState E I)).tree.length
      ≤ (run E I (n + 1) (initState E I)).tree.length) ∧
    (∀ i, i < (run E I n (initState E I)).tree.length →
      sameCore ((run E I n (initState E I)).tree.getD i default)
        ((run E I (n + 1) (initState E I)).tree.getD i default)) ∧
    (∀ j, 0 < j → j < (run E I n (initState E I)).tree.length →
      ((run E I n (initState E I)).tree.getD j default).origin_ < j) ∧
    (∀ j, j < (run E I n (initState E I)).tree.length →
      ∃ k, (fun m => ((run E I n (initState E I)).tree.getD m default).origin_)^[k] j
        = 0) := by
  have hwf := wf_run E I n (initState E I) (wf_init E I)
  have hrun : run E I (n + 1) (initState E I)
      = run E I 1 (run E I n (initState E I)) := run_add E I n 1 _
  refine ⟨?_, ?_, hwf.2.2.2, reaches_root _ hwf.2.2.2⟩
  · rw [hrun, run_one]
    split
    · exact le_refl _
    · exact stepBody_length_mono E I _
  · intro i hi
    rw [hrun, run_one]
    split
    · exact sameCore_refl _
    · exact stepBody_core E I _ i hi

theorem C6_append_only_witness :
    0 < 1 ∧ 1 < (run extConst inpConst 2 (initState extConst inpConst)).tree.length ∧
    ((run extConst inpConst 2 (initState extConst inpConst)).tree.getD 1
      default).origin_ < 1 :=
  ⟨by decide, by with_unfolding_all decide,
    (C6_append_only extConst inpConst 2).2.2.1 1 (by decide)
      (by with_unfolding_all decide)⟩

/-- C3: the root is seeded with total score equal to its heuristic (so its
cost-to-come is zero), and every node appended by the expansion branch
has parent = origin, heuristic = distance to goal times the heuristic
weight, and total score f(child) = f(origin) - h(origin) + edge cost of
the freshly built child (scored by the cost evaluator with its total score
still zero) + h(child). -/
theorem C3_score_update (E : Ext) (I : Inputs) :
    (((initState E I).tree.getD 0 default).total_cost_
        = treeHeuristicFunction E I (initState E I).tree 0 ∧
      ((initState E I).tree.getD 0 default).heuristic_
        = treeHeuristicFunction E I (initState E I).tree 0) ∧
    (∀ s : LoopState, s.origin < s.tree.length →
      guardB E I s.tree s.origin = false →
      ∀ j, s.tree.length ≤ j → j < (stepBody E I s).tree.length →
        ((stepBody E I s).tree.getD j default).origin_ = s.origin ∧
        ((stepBody E I s).tree.getD j default).heuristic_
          = E.nrm (I.goal_ - ((stepBody E I s).tree.getD j default).getPosition)
              * I.tree_heuristic_weight_ ∧
        ((stepBody E I s).tree.getD j default).total_cost_
          = (s.tree.getD s.origin default).total_cost_
            - (s.tree.getD s.origin default).heuristic_
            + E.cost { (stepBody E I s).tree.getD j default with
                total_cost_ := 0, closed_ := false } I.goal_
            + ((stepBody E I s).tree.getD j default).heuristic_) := by
  constructor
  · exact ⟨rfl, rfl⟩
  · intro s ho hg j hj1 hj2
    rw [stepExpand_tree E I s hg] at hj2 ⊢
    rw [expandTree] at hj2 ⊢
    rw [closeAt_length] at hj2
    rw [closeAt_getD_ne _ _ _ _ (by omega)]
    have hnew := foldl_addCandidate_new E I
      (adjustedLimits E I ((s.tree.getD s.origin default).state)) s.origin
      s.tree ho candidates s.tree (List.prefix_refl _)
      (fun j hj1 hj2 => absurd (lt_of_le_of_lt hj1 hj2) (lt_irrefl _)) j hj1 hj2
    exact ⟨hnew.1, hnew.2.2.1, hnew.2.2.2⟩

theorem C3_score_update_witness :
    (initState extConst inpConst).origin < (initState extConst inpConst).tree.length ∧
    guardB extConst inpConst (initState extConst inpConst).tree
      (initState extConst inpConst).origin = false ∧
    (initState extConst inpConst).tree.length ≤ 1 ∧
    1 < (stepBody extConst inpConst (initState extConst inpConst)).tree.length ∧
    ((stepBody extConst inpConst (initState extConst inpConst)).tree.getD 1
      default).origin_ = (initState extConst inpConst).origin :=
  ⟨by with_unfolding_all decide, by with_unfolding_all decide,
    by with_unfolding_all decide, by with_unfolding_all decide,
    ((C3_score_update extConst inpConst).2 (initState extConst inpConst)
      (by with_unfolding_all decide) (by with_unfolding_all decide) 1
      (by with_unfolding_all decide) (by with_unfolding_all decide)).1⟩

/-- C5: in every state reachable from the initial state, either all
distinct arena entries are at least the 0.2 dedup radius apart, or the
loop has terminated and all distinct entries besides the final
(goal-branch) one are; moreover a candidate whose simulated terminal
position has some existing node within the dedup radius is discarded,
leaving the arena unchanged. -/
theorem C5_dedup_radius (E : Ext) (I : Inputs) (n : ℕ) :
    (PairwiseFar E (run E I n (initState E I)).tree ∨
      ((run E I n (initState E I)).has_reached_goal = true ∧
        PairwiseFar E (run E I n (initState E I)).tree.dropLast)) ∧
    (∀ (L : simulation_limits) (o : ℕ) (t : List TreeNode) (c : Vec3),
      hasCloseNode E t
        (E.simEnd L (t.getD o default).state (1/20) (E.rot c)
          I.tree_node_duration_).position = true →
      addCandidate E I L o t c = t) :=
  ⟨treeOk_run E I n (initState E I) (wf_init E I)
      (Or.inl (pairwiseFar_init E I)),
    fun L o t c h => addCandidate_of_dup E I L o t c h⟩

theorem C5_dedup_radius_witness :
    hasCloseNode extStuck (initState extStuck inpStuck).tree
      (extStuck.simEnd inpStuck.lims_
        ((initState extStuck inpStuck).tree.getD 0 default).state (1/20)
        (extStuck.rot ⟨1, 0, 0⟩) inpStuck.tree_node_duration_).position = true ∧
    addCandidate extStuck inpStuck inpStuck.lims_ 0
      (initState extStuck inpStuck).tree ⟨1, 0, 0⟩
      = (initState extStuck inpStuck).tree :=
  ⟨by with_unfolding_all decide,
    (C5_dedup_radius extStuck inpStuck 0).2 inpStuck.lims_ 0
      (initState extStuck inpStuck).tree ⟨1, 0, 0⟩
      (by with_unfolding_all decide)⟩

/-- C10: the arena never shrinks along a run, so once it holds more than
one node the stuck check can never fire again; and when the stuck check
does fire after an expansion iteration, the iteration started from the
single-node arena (the first expansion of the root appended no children),
the resulting origin is the root, and the extracted setpoint path has
exactly one entry. -/
theorem C10_stuck_only_first (E : Ext) (I : Inputs) :
    (∀ (n : ℕ) (s : LoopState), s.tree.length ≤ (run E I n s).tree.length) ∧
    (∀ (n : ℕ) (s : LoopState), 1 < s.tree.length →
      1 < (run E I n s).tree.length) ∧
    (∀ s : LoopState, guardB E I s.tree s.origin = false →
      s.origin < s.tree.length →
      (stepBody E I s).tree.length ≤ 1 →
      s.tree.length = 1 ∧ (stepBody E I s).tree.length = 1 ∧
      (stepBody E I s).origin = 0 ∧
      extractPath (stepBody E I s).tree (stepBody E I s).origin
        = [((stepBody E I s).tree.getD 0 default).getSetpoint]) :=
  ⟨fun n s => run_length_mono E I n s,
    fun n s h => lt_of_lt_of_le h (run_length_mono E I n s),
    fun s hg ho hstk => stuck_step E I s hg ho hstk⟩

theorem C10_stuck_only_first_witness :
    guardB extStuck inpStuck (initState extStuck inpStuck).tree
      (initState extStuck inpStuck).origin = false ∧
    (initState extStuck inpStuck).origin < (initState extStuck inpStuck).tree.length ∧
    (stepBody extStuck inpStuck (initState extStuck inpStuck)).tree.length ≤ 1 ∧
    (stepBody extStuck inpStuck (initState extStuck inpStuck)).origin = 0 :=
  ⟨by with_unfolding_all decide, by with_unfolding_all decide,
    by with_unfolding_all decide,
    ((C10_stuck_only_first extStuck inpStuck).2.2 (initState extStuck inpStuck)
      (by with_unfolding_all decide) (by with_unfolding_all decide)
      (by with_unfolding_all decide)).2.2.1⟩

/-- C2 (counterexample): with the fixed-terminal-position simulator
behavior extConst and the inputs inpConst (goal never within the
acceptance radius, horizon never crossed), the expansion loop never sets
has_reached_goal: after two iterations every arena node is closed while
the arena holds two nodes, the retained origin is node 1 where the guard
fails, every candidate deduplicates, and the loop spins forever. -/
theorem C2_counterexample :
    ¬ ∃ n : ℕ, (run extConst inpConst n (initState extConst inpConst)).has_reached_goal
      = true := by
  rintro ⟨n, hn⟩
  have hall : ∀ m : ℕ,
      (run extConst inpConst m (initState extConst inpConst)).has_reached_goal
        = false := by
    intro m
    rcases m with _ | _ | m
    · rfl
    · with_unfolding_all decide
    · rw [show m + 1 + 1 = 2 + m by omega, run_add extConst inpConst 2 m]
      apply noExit extConst inpConst m
        (run extConst inpConst 2 (initState extConst inpConst))
      · with_unfolding_all decide
      · with_unfolding_all decide
      · with_unfolding_all decide
      · with_unfolding_all decide
      · with_unfolding_all decide
      · with_unfolding_all decide
  rw [hall n] at hn
  exact Bool.false_ne_true hn

/-- C2 (amended): the loop exits only through the goal-, horizon- or
stuck-branches; when no open node remains while the arena holds more than
one node, the guard fails at the retained origin and every candidate
deduplicates against the arena, the loop body leaves the arena, origin
and has_reached_goal unchanged, and no number of further iterations ever
terminates the loop. -/
theorem C2_no_exit_all_closed (E : Ext) (I : Inputs) (s : LoopState)
    (hnr : s.has_reached_goal = false)
    (ho : s.origin < s.tree.length)
    (hlen : 1 < s.tree.length)
    (hg : guardB E I s.tree s.origin = false)
    (hcl : ∀ i, i < s.tree.length → (s.tree.getD i default).closed_ = true)
    (hdup : ∀ c ∈ candidates, hasCloseNode E s.tree
      (E.simEnd (adjustedLimits E I ((s.tree.getD s.origin default).state))
        (s.tree.getD s.origin default).state (1/20) (E.rot c)
        I.tree_node_duration_).position = true) :
    (stepBody E I s).tree = s.tree ∧ (stepBody E I s).origin = s.origin ∧
    (stepBody E I s).has_reached_goal = false ∧
    ∀ n, (run E I n s).has_reached_goal = false := by
  have hexp : expandTree E I s = s.tree := expandTree_id E I s ho hcl hdup
  refine ⟨?_, ?_, ?_, fun n => noExit E I n s hnr ho hlen hg hcl hdup⟩
  · rw [stepExpand_tree E I s hg, hexp]
  · rw [stepExpand_origin E I s hg, hexp]
    exact selectOrigin_all_closed s.tree s.origin hcl
  · rw [stepExpand_reached E I s hg, hexp, decide_eq_false_iff_not]
    omega

theorem C2_no_exit_all_closed_witness :
    (run extConst inpConst 2 (initState extConst inpConst)).has_reached_goal
      = false ∧
    1 < (run extConst inpConst 2 (initState extConst inpConst)).tree.length ∧
    (run extConst inpConst 7 (run extConst inpConst 2
      (initState extConst inpConst))).has_reached_goal = false :=
  ⟨by with_unfolding_all decide, by with_unfolding_all decide,
    (C2_no_exit_all_closed extConst inpConst
      (run extConst inpConst 2 (initState extConst inpConst))
      (by with_unfolding_all decide) (by with_unfolding_all decide)
      (by with_unfolding_all decide) (by with_unfolding_all decide)
      (by with_unfolding_all decide) (by with_unfolding_all decide)).2.2.2 7⟩

/-- C9 (counterexample): in the horizon scenario inpHoriz the guard fires
at the root; after the branch the closed set holds both the origin index
and the new terminal index, but both per-node closed flags are still
false. -/
theorem C9_counterexample :
    (run extStuck inpHoriz 1 (initState extStuck inpHoriz)).closed_set = [0, 1] ∧
    (run extStuck inpHoriz 1 (initState extStuck inpHoriz)).has_reached_goal
      = true ∧
    ((run extStuck inpHoriz 1 (initState extStuck inpHoriz)).tree.getD 0
      default).closed_ = false ∧
    ((run extStuck inpHoriz 1 (initState extStuck inpHoriz)).tree.getD 1
      default).closed_ = false := by
  with_unfolding_all decide

/-- C9 (amended): when the goal/horizon branch fires, the indices of the
origin and of the freshly appended terminal node are pushed onto the
closed set before path extraction, but the per-node closed flags are not
modified by the branch: every prior entry keeps its flag and the new
terminal node is created with its flag false. -/
theorem C9_closed_set_only (E : Ext) (I : Inputs) (s : LoopState)
    (hg : guardB E I s.tree s.origin = true) :
    (stepBody E I s).closed_set = s.closed_set ++ [s.origin, s.tree.length] ∧
    (stepBody E I s).has_reached_goal = true ∧
    (∀ i, i < s.tree.length →
      ((stepBody E I s).tree.getD i default).closed_
        = (s.tree.getD i default).closed_) ∧
    ((stepBody E I s).tree.getD s.tree.length default).closed_ = false := by
  refine ⟨stepGuard_closed_set E I s hg, stepGuard_reached E I s hg, ?_, ?_⟩
  · intro i hi
    rw [stepGuard_tree E I s hg,
      getD_of_pref (List.prefix_append s.tree _) hi default]
  · rw [stepGuard_tree E I s hg, getD_append_last]
    rfl

theorem C9_closed_set_only_witness :
    guardB extStuck inpHoriz (initState extStuck inpHoriz).tree
      (initState extStuck inpHoriz).origin = true ∧
    (stepBody extStuck inpHoriz (initState extStuck inpHoriz)).closed_set
      = (initState extStuck inpHoriz).closed_set ++
          [(initState extStuck inpHoriz).origin,
            (initState extStuck inpHoriz).tree.length] :=
  ⟨by with_unfolding_all decide,
    (C9_closed_set_only extStuck inpHoriz (initState extStuck inpHoriz)
      (by with_unfolding_all decide)).1⟩

/-- C1 (evaluation at the failing input): in the zero-motion scenario the
search terminates stuck with a single-entry setpoint path; the guard of
line 153, evaluated in size_t arithmetic, still holds (the subtraction
wraps to 2 to the 64th minus 1), and the subsequent read of entry
size() - 2 is out of range, so starting_direction_ gets no in-range
value — the source commits an out-of-bounds vector read on every
degenerate single-node path. -/
theorem C1_out_of_range_read :
    (buildLookAheadTree extStuck inpStuck 1).path_node_setpoints_.length = 1 ∧
    sizeSub2 (buildLookAheadTree extStuck inpStuck 1).path_node_setpoints_.length
      = 2 ^ 64 - 1 ∧
    0 ≤ sizeSub2
      (buildLookAheadTree extStuck inpStuck 1).path_node_setpoints_.length ∧
    (buildLookAheadTree extStuck inpStuck 1).path_node_setpoints_.get?
      (sizeSub2
        (buildLookAheadTree extStuck inpStuck 1).path_node_setpoints_.length)
      = none ∧
    (buildLookAheadTree extStuck inpStuck 1).starting_direction_ = none := by
  have hlen : (buildLookAheadTree extStuck inpStuck 1).path_node_setpoints_.length
      = 1 := by with_unfolding_all decide
  have hbig : 1 ≤ sizeSub2 1 := by decide
  refine ⟨hlen, ?_, Nat.zero_le _, ?_, ?_⟩
  · rw [hlen]
    decide
  · rw [List.get?_eq_none, hlen]
    exact hbig
  · with_unfolding_all decide

end StarPlanner
